import Mathlib

/-!
Shallow embedding of `src/src/VarManager.tsx` (JoshuaSkootsky/paste-env-vars):
a browser editor for KEY=VALUE environment-variable lists.  The component's
state and every state transition used by the frozen claims are translated
here as pure Lean functions; `uuidv4` id generation is modelled by a `Nat`
counter threaded through the state (all that matters about uuids is
freshness/uniqueness).
-/

namespace VarManager

/-- ECMAScript `String.prototype.trim` whitespace set (WhiteSpace ∪
LineTerminator): TAB LF VT FF CR SP NBSP ZWNBSP, LS, PS, and the Unicode
Space_Separator characters. -/
def jsWhitespace (c : Char) : Bool :=
  c == ' ' || c == '\t' || c == '\n' || c == '\x0b' || c == '\x0c' ||
  c == '\r' || c == '\xa0' || c == ' ' ||
  (' ' ≤ c && c ≤ ' ') ||
  c == ' ' || c == ' ' || c == ' ' || c == ' ' ||
  c == '　' || c == '﻿'

/-- Drop leading and trailing JS whitespace from a character list. -/
def trimList (cs : List Char) : List Char :=
  ((cs.dropWhile jsWhitespace).reverse.dropWhile jsWhitespace).reverse

/-- JS `s.trim()`. -/
def jsTrim (s : String) : String :=
  ⟨trimList s.data⟩

/-- Split a character list at the first `'='`: returns the characters
before it and after it (JS `indexOf('=')` + the two `substring` calls in
`parseAndPopulate`, lines 60–71); `none` when no `'='` occurs. -/
def splitAtFirstEq : List Char → Option (List Char × List Char)
  | [] => none
  | c :: cs =>
    if c = '=' then some ([], cs)
    else match splitAtFirstEq cs with
      | none => none
      | some (a, b) => some (c :: a, b)

/-- String-level wrapper for `splitAtFirstEq`. -/
def splitFirstEq (s : String) : Option (String × String) :=
  match splitAtFirstEq s.data with
  | none => none
  | some (a, b) => some (⟨a⟩, ⟨b⟩)

/-- Character class of `KEY_REGEX = /^[A-Za-z0-9_]+$/`. -/
def isKeyChar (c : Char) : Bool :=
  ('A' ≤ c && c ≤ 'Z') || ('a' ≤ c && c ≤ 'z') ||
  ('0' ≤ c && c ≤ '9') || c == '_'

/-- Source `KEY_REGEX.test v` (line 13): the whole string is one or more
characters of the class. -/
def keyRegexTest (s : String) : Bool :=
  !s.data.isEmpty && s.data.all isKeyChar

/-- One row of the table (`EnvironmentVariable`, source lines 6–10);
`id` models the uuid string. -/
structure EnvironmentVariable where
  id : Nat
  key : String
  value : String
  deriving DecidableEq, Repr

/-- Source `INITIAL_ROW_COUNT` (line 12). -/
def INITIAL_ROW_COUNT : Nat := 20

/-- The component's state: the five `useState` hooks plus the fresh-id
counter modelling `uuidv4`.  `rowErrors` is the JS object
`Record<string, string>` as an insertion-ordered association list keyed
by row id; `error`/`status` model the two nullable banners. -/
structure EditorState where
  rawText : String
  «variables» : List EnvironmentVariable
  rowErrors : List (Nat × String)
  error : Option String
  status : Option String
  nextId : Nat
  deriving DecidableEq, Repr

/-- Initial state (source lines 25–36): 20 empty rows, no errors. -/
def initState : EditorState :=
  { rawText := ""
    «variables» := (List.range INITIAL_ROW_COUNT).map fun i => ⟨i, "", ""⟩
    rowErrors := []
    error := none
    status := none
    nextId := INITIAL_ROW_COUNT }

/-- An accumulated `{key, value, line}` record (source line 50). -/
structure ParsedItem where
  key : String
  value : String
  line : Nat
  deriving DecidableEq, Repr

/-- The no-`'='` warning string (source lines 64–66). -/
def noEqWarning (lineNum : Nat) (trimmedLine : String) : String :=
  "Warning: Line " ++ toString lineNum ++ " does not contain '='. Input: \"" ++
    trimmedLine ++ "\". Skipping."

/-- The empty-key warning string (source lines 77–81). -/
def emptyKeyWarning (lineNum : Nat) (trimmedLine : String) : String :=
  "Warning: Empty key on line " ++ toString lineNum ++ ". Input: \"" ++
    trimmedLine ++ "\". Skipping."

/-- JS `s.startsWith('#')`: the first character is `'#'`. -/
def startsWithHash (s : String) : Bool :=
  s.data.head? == some '#'

/-- Per-line step of the `lines.forEach` loop (source lines 54–83): for the
line at 0-based `idx` the loop pushes at most one item onto `parsedItems`
and at most one string onto `parseWarningMessages`; both are returned. -/
def lineResult (idx : Nat) (line : String) : Option ParsedItem × Option String :=
  let lineNum := idx + 1
  let trimmedLine := jsTrim line
  if trimmedLine = "" || startsWithHash trimmedLine then (none, none)
  else
    match splitFirstEq trimmedLine with
    | none => (none, some (noEqWarning lineNum trimmedLine))
    | some (pre, post) =>
      let key := jsTrim pre
      let value := jsTrim post
      if key ≠ "" then (some ⟨key, value, lineNum⟩, none)
      else (none, some (emptyKeyWarning lineNum trimmedLine))

/-- JS `rawText.split('\n')` on the character list: cut at every `'\n'`;
the empty text yields one empty line, as in JS. -/
def splitLinesList : List Char → List (List Char)
  | [] => [[]]
  | c :: rest =>
    if c = '\n' then [] :: splitLinesList rest
    else
      match splitLinesList rest with
      | [] => [[c]]
      | l :: ls => (c :: l) :: ls

/-- Source `const lines = rawText.split('\n')` (line 49). -/
def splitLines (s : String) : List String :=
  (splitLinesList s.data).map fun l => ⟨l⟩

/-- The `parsedItems` list after the loop: the items pushed per line, in
line order. -/
def parsedItems (raw : String) : List ParsedItem :=
  ((splitLines raw).enum).filterMap fun p => (lineResult p.1 p.2).1

/-- The `parseWarningMessages` list after the loop, in line order. -/
def parseWarningMessages (raw : String) : List String :=
  ((splitLines raw).enum).filterMap fun p => (lineResult p.1 p.2).2

/-- Source `keyCounts` (line 52): created as `{}` and never written to
anywhere in the component, so it stays empty. -/
def keyCounts : List (String × Nat) := []

/-- The "Detect duplicates" loop (source lines 86–92): iterates
`Object.entries(keyCounts)` and pushes a warning when `occ > 1` (the
source additionally requires `Array.isArray(keyCounts[k])`, which is false
for the declared `number` values; since `keyCounts` is empty the guard is
never even reached). -/
def duplicateWarnings : List String :=
  keyCounts.foldl
    (fun ws kv =>
      if kv.2 > 1 then ws ++ ["Duplicate key \"" ++ kv.1 ++ "\""] else ws)
    []

/-- All warnings `parseAndPopulate` collects for a raw text. -/
def allWarnings (raw : String) : List String :=
  parseWarningMessages raw ++ duplicateWarnings

/-- JS `{...acc, [key]: value}` on a plain object, as an association list:
an existing key keeps its position and gets the new value, a new key is
appended.  (For keys that are canonical array indices JS additionally
reorders `Object.entries` numerically first; no claim here depends on the
relative order of distinct keys, only on membership, values and count.) -/
def insertLast (acc : List (String × String)) (k v : String) :
    List (String × String) :=
  if acc.any (fun p => p.1 = k) then
    acc.map fun p => if p.1 = k then (k, v) else p
  else acc ++ [(k, v)]

/-- The `parsedItems.reduce` dedup (source lines 103–106): later
occurrences of a key overwrite earlier ones. -/
def dedup (items : List ParsedItem) : List (String × String) :=
  items.foldl (fun acc it => insertLast acc it.key it.value) []

/-- The row-building loop (source lines 107–118): `rowCount =
max(INITIAL_ROW_COUNT, entries.length)` rows, entry `i` when it exists,
otherwise a fresh empty row; ids are fresh (`uuidv4` per row). -/
def buildRows (nextId : Nat) (entries : List (String × String)) :
    List EnvironmentVariable :=
  (List.range (max INITIAL_ROW_COUNT entries.length)).map fun i =>
    match entries[i]? with
    | some kv => ⟨nextId + i, kv.1, kv.2⟩
    | none => ⟨nextId + i, "", ""⟩

/-- Source `parseAndPopulate` (lines 46–121) as a state transformer: parses
`rawText`, sets `error`/`status` from the collected warnings, and replaces
`variables` wholesale with the deduplicated entries padded to
`INITIAL_ROW_COUNT`. -/
def parseAndPopulate (s : EditorState) : EditorState :=
  let warnings := allWarnings s.rawText
  let entries := dedup (parsedItems s.rawText)
  let rowCount := max INITIAL_ROW_COUNT entries.length
  { s with
    error := if warnings = [] then none else some (String.intercalate "\n" warnings)
    status := if warnings = [] then some "Parsed successfully!" else none
    «variables» := buildRows s.nextId entries
    nextId := s.nextId + rowCount }

/-- Lookup in the `rowErrors` object. -/
def lookupErr (e : List (Nat × String)) (id : Nat) : Option String :=
  (e.find? fun p => p.1 == id).map fun p => p.2

/-- JS `{...e, [id]: msg}` on `rowErrors`. -/
def setErr (e : List (Nat × String)) (id : Nat) (msg : String) :
    List (Nat × String) :=
  if e.any (fun p => p.1 = id) then
    e.map fun p => if p.1 = id then (id, msg) else p
  else e ++ [(id, msg)]

/-- JS truthiness of `rowErrors[r.id]`: an entry exists and is a non-empty
string. -/
def truthyErr (e : List (Nat × String)) (id : Nat) : Bool :=
  match lookupErr e id with
  | some m => !(m == "")
  | none => false

/-- Which field of a row an edit targets (`field: 'key' | 'value'`). -/
inductive Field
  | key
  | value
  deriving DecidableEq, Repr

/-- The validation message `handleVariableChange` stores for a key edit
(source lines 131–145). -/
def keyErrorMsg (id : Nat) (v : String) : String :=
  if jsTrim v = "" then "Key is required."
  else if !keyRegexTest v then "Only letters, digits, and underscore allowed."
  else "Error in " ++ toString id

/-- Source `handleVariableChange` (lines 123–146): update the addressed
field of the row with the given id, and on a key edit store the
validation message under that id in `rowErrors`; value edits leave
`rowErrors` alone. -/
def handleVariableChange (s : EditorState) (id : Nat) (field : Field)
    (v : String) : EditorState :=
  let vars := s.«variables».map fun r =>
    if r.id = id then
      match field with
      | .key => { r with key := v }
      | .value => { r with value := v }
    else r
  match field with
  | .value => { s with «variables» := vars }
  | .key => { s with «variables» := vars, rowErrors := setErr s.rowErrors id (keyErrorMsg id v) }

/-- Source `addVariableRow` (lines 148–149). -/
def addVariableRow (s : EditorState) : EditorState :=
  { s with «variables» := s.«variables» ++ [⟨s.nextId, "", ""⟩], nextId := s.nextId + 1 }

/-- Source `deleteVariableRow` (lines 151–152). -/
def deleteVariableRow (s : EditorState) (id : Nat) : EditorState :=
  { s with «variables» := s.«variables».filter fun r => !(r.id == id) }

/-- Source `clearAll` (lines 154–160). -/
def clearAll (s : EditorState) : EditorState :=
  { rawText := ""
    «variables» := (List.range INITIAL_ROW_COUNT).map fun i => ⟨s.nextId + i, "", ""⟩
    rowErrors := []
    error := none
    status := none
    nextId := s.nextId + INITIAL_ROW_COUNT }

/-- Source `clearText` (line 161): resets `rawText` only. -/
def clearText (s : EditorState) : EditorState :=
  { s with rawText := "" }

/-- Source `getOutputText` (lines 163–167): rows whose key is truthy after
trimming and whose `rowErrors[r.id]` is falsy, rendered `key=value` and
newline-joined. -/
def getOutputText (s : EditorState) : String :=
  String.intercalate "\n"
    ((s.«variables».filter fun r =>
        !(jsTrim r.key == "") && !(truthyErr s.rowErrors r.id)).map
      fun r => r.key ++ "=" ++ r.value)

/-- The re-parse effect (source lines 187–192): whenever the state renders
with a non-empty `rawText`, `parseAndPopulate` runs. -/
def effectStep (s : EditorState) : EditorState :=
  if s.rawText ≠ "" then parseAndPopulate s else s

/-- The UI events that mutate state: a textarea change (followed by the
re-parse effect), a row-field keystroke, the four buttons, the status
auto-clear timeout firing, and a bare re-render of the effect (its
dependency array recreates `parseAndPopulate` every render, so it can
re-run without a `rawText` change). -/
inductive Op
  | textChange (t : String)
  | varChange (id : Nat) (field : Field) (v : String)
  | addRow
  | deleteRow (id : Nat)
  | doClearText
  | doClearAll
  | statusTimeout
  | rerender
  deriving DecidableEq, Repr

/-- One UI event applied to a state. -/
def applyOp (s : EditorState) : Op → EditorState
  | .textChange t => effectStep { s with rawText := t }
  | .varChange id field v => handleVariableChange s id field v
  | .addRow => addVariableRow s
  | .deleteRow id => deleteVariableRow s id
  | .doClearText => effectStep (clearText s)
  | .doClearAll => effectStep (clearAll s)
  | .statusTimeout => { s with status := none }
  | .rerender => effectStep s

/-- The state after a sequence of UI events from the initial state. -/
def run (ops : List Op) : EditorState :=
  ops.foldl applyOp initState

/-- Association-list lookup on the dedup result. -/
def lookupKV (l : List (String × String)) (k : String) : Option String :=
  (l.find? fun p => p.1 == k).map fun p => p.2

/-- The value of the last-occurring item with key `k`, when one exists. -/
def lastVal (items : List ParsedItem) (k : String) : Option String :=
  ((items.filter fun it => it.key == k).getLast?).map fun it => it.value

/-- Spec-side restatement of §4.4 (for comparison with `getOutputText`):
rows whose key trims to non-empty AND whose id has NO entry in
`rowErrors`, mapped to `key=value` and newline-joined, in row order. -/
def getOutputTextSpec (s : EditorState) : String :=
  String.intercalate "\n"
    ((s.«variables».filter fun r =>
        !(jsTrim r.key == "") && (lookupErr s.rowErrors r.id).isNone).map
      fun r => r.key ++ "=" ++ r.value)

/-- All stored row-error messages are non-empty strings (holds in every
reachable state: the three validation messages are non-empty). -/
def errsNonempty (e : List (Nat × String)) : Prop :=
  ∀ p ∈ e, p.2 ≠ ""

/-- Every row id in use is below the fresh-id counter (uuid freshness). -/
def idsBelow (s : EditorState) : Prop :=
  ∀ r ∈ s.«variables», r.id < s.nextId

/-! ### Association-list lemmas -/

theorem lookupErr_setErr_self (e : List (Nat × String)) (id : Nat) (msg : String) :
    lookupErr (setErr e id msg) id = some msg := by
  induction e with
  | nil => simp [setErr, lookupErr]
  | cons p t ih =>
    by_cases hp : p.1 = id
    · simp only [setErr, List.any_cons, lookupErr]
      simp [hp, List.find?]
    · simp only [setErr, List.any_cons, decide_eq_true_eq, hp, Bool.false_or]
      by_cases ht : t.any fun q => q.1 = id
      · simpa [setErr, lookupErr, ht, List.find?, hp, Ne.symm hp] using ih
      · simpa [setErr, lookupErr, ht, List.find?, hp, Ne.symm hp] using ih

theorem errsNonempty_setErr {e : List (Nat × String)} (he : errsNonempty e)
    {msg : String} (hm : msg ≠ "") (id : Nat) :
    errsNonempty (setErr e id msg) := by
  intro p hp
  unfold setErr at hp
  split at hp
  · rcases List.mem_map.1 hp with ⟨q, hq, rfl⟩
    split
    · exact hm
    · exact he q hq
  · rcases List.mem_append.1 hp with h | h
    · exact he p h
    · simp only [List.mem_singleton] at h
      subst h
      exact hm

theorem keyErrorMsg_ne_empty (id : Nat) (v : String) : keyErrorMsg id v ≠ "" := by
  unfold keyErrorMsg
  split
  · intro h
    exact absurd (congrArg String.data h) (by simp)
  · split
    · intro h
      exact absurd (congrArg String.data h) (by simp)
    · intro h
      have hd := congrArg String.data h
      rw [show ("Error in " ++ toString id) = ⟨"Error in ".data ++ (toString id).data⟩ from rfl] at hd
      simp at hd

/-! ### Claims C1, C7, C9 -/

/-- C1: a key edit through `handleVariableChange` always stores a row error
for the edited id — `"Key is required."` when the new key trims to empty,
`"Only letters, digits, and underscore allowed."` when it has a character
outside `[A-Za-z0-9_]`, and otherwise the non-empty placeholder
`"Error in <id>"` rather than clearing the error; in all cases the row's
field is updated in `variables`, and value edits never touch `rowErrors`. -/
theorem claim_C1 (s : EditorState) (id : Nat) (v : String) :
    (handleVariableChange s id Field.value v).rowErrors = s.rowErrors
  ∧ (handleVariableChange s id Field.value v).«variables»
      = s.«variables».map (fun r => if r.id = id then { r with value := v } else r)
  ∧ (handleVariableChange s id Field.key v).«variables»
      = s.«variables».map (fun r => if r.id = id then { r with key := v } else r)
  ∧ lookupErr (handleVariableChange s id Field.key v).rowErrors id
      = some (if jsTrim v = "" then "Key is required."
              else if keyRegexTest v = false then
                "Only letters, digits, and underscore allowed."
              else "Error in " ++ toString id)
  ∧ ("Error in " ++ toString id) ≠ "" := by
  refine ⟨rfl, ?_, ?_, ?_, ?_⟩
  · simp [handleVariableChange]
  · simp [handleVariableChange]
  · have h : (handleVariableChange s id Field.key v).rowErrors
        = setErr s.rowErrors id (keyErrorMsg id v) := rfl
    rw [h, lookupErr_setErr_self]
    unfold keyErrorMsg
    by_cases h1 : jsTrim v = "" <;> by_cases h2 : keyRegexTest v <;> simp [h1, h2]
  · intro h
    have hd := congrArg String.data h
    rw [show ("Error in " ++ toString id) = ⟨"Error in ".data ++ (toString id).data⟩ from rfl] at hd
    simp at hd

/-- C7: after `parseAndPopulate`, `error` is the collected warnings joined
with newlines exactly when warnings were collected (with `status` unset),
and otherwise `error` is cleared and `status` is the success message. -/
theorem claim_C7 (s : EditorState) :
    (parseAndPopulate s).error
      = (if allWarnings s.rawText = [] then none
         else some (String.intercalate "\n" (allWarnings s.rawText)))
  ∧ (parseAndPopulate s).status
      = (if allWarnings s.rawText = [] then some "Parsed successfully!" else none) :=
  ⟨rfl, rfl⟩

/-- C9: `clearText` resets `rawText` to the empty string and leaves
`variables`, `rowErrors`, `error` and `status` unchanged, and the re-parse
effect on the resulting state is a no-op (blank raw text never re-parses). -/
theorem claim_C9 (s : EditorState) :
    effectStep (clearText s) = clearText s
  ∧ (clearText s).rawText = ""
  ∧ (clearText s).«variables» = s.«variables»
  ∧ (clearText s).rowErrors = s.rowErrors
  ∧ (clearText s).error = s.error
  ∧ (clearText s).status = s.status := by
  refine ⟨?_, rfl, rfl, rfl, rfl, rfl⟩
  simp [effectStep, clearText]

/-! ### Claim C2: output serialization -/

theorem rowErrors_parseAndPopulate (s : EditorState) :
    (parseAndPopulate s).rowErrors = s.rowErrors := rfl

theorem errsNonempty_effectStep {t : EditorState} (ht : errsNonempty t.rowErrors) :
    errsNonempty (effectStep t).rowErrors := by
  unfold effectStep
  split
  · exact ht
  · exact ht

theorem errsNonempty_applyOp {s : EditorState} (hs : errsNonempty s.rowErrors)
    (o : Op) : errsNonempty (applyOp s o).rowErrors := by
  cases o with
  | textChange t => exact errsNonempty_effectStep hs
  | varChange id field v =>
    cases field with
    | value => exact hs
    | key => exact errsNonempty_setErr hs (keyErrorMsg_ne_empty id v) id
  | addRow => exact hs
  | deleteRow id => exact hs
  | doClearText => exact errsNonempty_effectStep hs
  | doClearAll =>
    apply errsNonempty_effectStep
    intro p hp
    simp [clearAll] at hp
  | statusTimeout => exact hs
  | rerender => exact errsNonempty_effectStep hs

theorem errsNonempty_foldl (ops : List Op) (s : EditorState)
    (hs : errsNonempty s.rowErrors) :
    errsNonempty (ops.foldl applyOp s).rowErrors := by
  induction ops generalizing s with
  | nil => exact hs
  | cons o t ih => exact ih _ (errsNonempty_applyOp hs o)

theorem errsNonempty_run (ops : List Op) : errsNonempty (run ops).rowErrors :=
  errsNonempty_foldl ops initState (by intro p hp; simp [initState] at hp)

theorem truthyErr_eq_isNone (e : List (Nat × String)) (he : errsNonempty e)
    (id : Nat) : (!truthyErr e id) = (lookupErr e id).isNone := by
  unfold truthyErr
  cases hfind : lookupErr e id with
  | none => simp
  | some m =>
    have hm : m ≠ "" := by
      unfold lookupErr at hfind
      rcases Option.map_eq_some'.1 hfind with ⟨q, hq, rfl⟩
      exact he q (List.mem_of_find?_eq_some hq)
    simp [hm]

theorem getOutputText_eq_spec {s : EditorState}
    (he : errsNonempty s.rowErrors) : getOutputText s = getOutputTextSpec s := by
  unfold getOutputText getOutputTextSpec
  have h : ∀ r ∈ s.«variables»,
      (!(jsTrim r.key == "") && !(truthyErr s.rowErrors r.id))
        = (!(jsTrim r.key == "") && (lookupErr s.rowErrors r.id).isNone) :=
    fun r _ => by rw [truthyErr_eq_isNone s.rowErrors he r.id]
  rw [List.filter_congr h]

/-- C2: in every reachable state, `getOutputText` returns exactly the rows
whose key trims to non-empty and whose id has no entry in `rowErrors`,
each rendered `key=value` with the value (and key) taken verbatim, joined
with newline and preserving row order — i.e. it agrees with the spec-side
serialization `getOutputTextSpec`. -/
theorem claim_C2 (ops : List Op) :
    getOutputText (run ops) = getOutputTextSpec (run ops) :=
  getOutputText_eq_spec (errsNonempty_run ops)

/-! ### Parser lemmas: splitting and trimming -/

theorem splitAtFirstEq_eq {cs a b : List Char} (h : splitAtFirstEq cs = some (a, b)) :
    cs = a ++ '=' :: b := by
  induction cs generalizing a b with
  | nil => simp [splitAtFirstEq] at h
  | cons c t ih =>
    unfold splitAtFirstEq at h
    split at h
    · rename_i hc
      simp only [Option.some.injEq, Prod.mk.injEq] at h
      obtain ⟨rfl, rfl⟩ := h
      simp [hc]
    · rename_i hc
      cases hsplit : splitAtFirstEq t with
      | none => rw [hsplit] at h; simp at h
      | some p =>
        obtain ⟨p1, p2⟩ := p
        rw [hsplit] at h
        simp only [Option.some.injEq, Prod.mk.injEq] at h
        obtain ⟨rfl, rfl⟩ := h
        rw [ih hsplit]
        rfl

theorem dropWhile_head_false {p : Char → Bool} :
    ∀ {cs : List Char} {c : Char} {t : List Char}, cs.dropWhile p = c :: t → p c = false := by
  intro cs
  induction cs with
  | nil => intro c t h; simp [List.dropWhile] at h
  | cons x xs ih =>
    intro c t h
    rw [List.dropWhile_cons] at h
    split at h
    · exact ih h
    · rename_i hx
      obtain ⟨rfl, rfl⟩ : x = c ∧ xs = t := by
        simpa using h
      exact Bool.eq_false_iff.2 hx

theorem trimList_prefix (cs : List Char) :
    ∃ u, cs.dropWhile jsWhitespace = trimList cs ++ u := by
  obtain ⟨u, hu⟩ := List.dropWhile_suffix (l := (cs.dropWhile jsWhitespace).reverse) jsWhitespace
  refine ⟨u.reverse, ?_⟩
  have h := congrArg List.reverse hu
  simp only [List.reverse_append, List.reverse_reverse] at h
  exact h.symm

theorem trimList_head_not_ws {cs : List Char} {c : Char} {t : List Char}
    (h : trimList cs = c :: t) : jsWhitespace c = false := by
  obtain ⟨u, hu⟩ := trimList_prefix cs
  rw [h, List.cons_append] at hu
  exact dropWhile_head_false hu

theorem trimList_cons_head {c : Char} {cs : List Char} (hc : jsWhitespace c = false) :
    trimList (c :: cs) = [] ∨ ∃ t, trimList (c :: cs) = c :: t := by
  obtain ⟨u, hu⟩ := trimList_prefix (c :: cs)
  rw [List.dropWhile_cons, if_neg (by simp [hc])] at hu
  cases htl : trimList (c :: cs) with
  | nil => exact Or.inl rfl
  | cons x xs =>
    right
    rw [htl, List.cons_append] at hu
    obtain ⟨rfl, -⟩ : c = x ∧ cs = xs ++ u := by simpa using hu
    exact ⟨xs, rfl⟩

/-! ### Parser lemmas: per-line results -/

theorem lineResult_fst_line {idx : Nat} {l : String} {it : ParsedItem}
    (h : (lineResult idx l).1 = some it) : it.line = idx + 1 ∧ it.key ≠ "" := by
  simp only [lineResult] at h
  split at h
  · simp at h
  · split at h
    · simp at h
    · rename_i pre post heq
      split at h
      · rename_i hkey
        simp only [Option.some.injEq] at h
        subst h
        exact ⟨rfl, hkey⟩
      · simp at h

theorem lineResult_snd_shape {idx : Nat} {l : String} {w : String}
    (h : (lineResult idx l).2 = some w) :
    w = noEqWarning (idx + 1) (jsTrim l) ∨ w = emptyKeyWarning (idx + 1) (jsTrim l) := by
  simp only [lineResult] at h
  split at h
  · simp at h
  · split at h
    · simp only [Option.some.injEq] at h
      exact Or.inl h.symm
    · split at h
      · simp at h
      · simp only [Option.some.injEq] at h
        exact Or.inr h.symm

theorem mem_parsedItems {raw : String} {it : ParsedItem} (h : it ∈ parsedItems raw) :
    ∃ l, (splitLines raw)[it.line - 1]? = some l
      ∧ (lineResult (it.line - 1) l).1 = some it := by
  rcases List.mem_filterMap.1 h with ⟨⟨idx, l⟩, hmem, hres⟩
  have hline := (lineResult_fst_line hres).1
  have hget : (splitLines raw)[idx]? = some l := List.mk_mem_enum_iff_getElem?.1 hmem
  rw [hline, Nat.add_sub_cancel]
  exact ⟨l, hget, hres⟩

theorem parsedItems_key_ne_empty {raw : String} {it : ParsedItem}
    (h : it ∈ parsedItems raw) : it.key ≠ "" := by
  rcases List.mem_filterMap.1 h with ⟨⟨idx, l⟩, _, hres⟩
  exact (lineResult_fst_line hres).2

theorem parsedItems_line_unique {raw : String} {it it' : ParsedItem}
    (h : it ∈ parsedItems raw) (h' : it' ∈ parsedItems raw)
    (hl : it.line = it'.line) : it = it' := by
  obtain ⟨l, hg, hr⟩ := mem_parsedItems h
  obtain ⟨l', hg', hr'⟩ := mem_parsedItems h'
  rw [hl] at hg hr
  rw [hg] at hg'
  obtain rfl : l = l' := Option.some.inj hg'
  rw [hr] at hr'
  exact Option.some.inj hr'

/-! ### Dedup lemmas -/

theorem keys_insertLast (acc : List (String × String)) (k v : String) :
    (insertLast acc k v).map Prod.fst
      = if k ∈ acc.map Prod.fst then acc.map Prod.fst
        else acc.map Prod.fst ++ [k] := by
  unfold insertLast
  by_cases h : (acc.any fun p => p.1 = k) = true
  · rw [if_pos h, if_pos ?hm]
    case hm =>
      rcases List.any_eq_true.1 h with ⟨p, hp, hpk⟩
      simp only [decide_eq_true_eq] at hpk
      exact List.mem_map.2 ⟨p, hp, hpk⟩
    rw [List.map_map]
    apply List.map_congr_left
    intro p hp
    by_cases hpk : p.1 = k
    · simp [hpk]
    · simp [hpk]
  · rw [if_neg h, if_neg ?hm']
    case hm' =>
      intro hk
      apply h
      rcases List.mem_map.1 hk with ⟨p, hp, hpk⟩
      exact List.any_eq_true.2 ⟨p, hp, by simp [hpk]⟩
    simp

theorem mem_keys_insertLast (acc : List (String × String)) (k0 v k : String) :
    k ∈ (insertLast acc k0 v).map Prod.fst
      ↔ k ∈ acc.map Prod.fst ∨ k = k0 := by
  rw [keys_insertLast]
  split
  · rename_i h
    constructor
    · exact Or.inl
    · rintro (hk | rfl)
      · exact hk
      · exact h
  · simp

theorem nodup_keys_insertLast {acc : List (String × String)}
    (h : (acc.map Prod.fst).Nodup) (k v : String) :
    ((insertLast acc k v).map Prod.fst).Nodup := by
  rw [keys_insertLast]
  split
  · exact h
  · rename_i hk
    exact List.Nodup.append h (List.nodup_singleton k) (by simpa using hk)

theorem nodup_keys_foldl (items : List ParsedItem) (acc : List (String × String))
    (h : (acc.map Prod.fst).Nodup) :
    ((items.foldl (fun a it => insertLast a it.key it.value) acc).map Prod.fst).Nodup := by
  induction items generalizing acc with
  | nil => exact h
  | cons it rest ih => exact ih _ (nodup_keys_insertLast h _ _)

theorem nodup_keys_dedup (items : List ParsedItem) :
    ((dedup items).map Prod.fst).Nodup :=
  nodup_keys_foldl items [] (by simp)

theorem mem_keys_foldl (items : List ParsedItem) (acc : List (String × String))
    (k : String) :
    k ∈ ((items.foldl (fun a it => insertLast a it.key it.value) acc).map Prod.fst)
      ↔ k ∈ acc.map Prod.fst ∨ ∃ it ∈ items, it.key = k := by
  induction items generalizing acc with
  | nil => simp
  | cons it rest ih =>
    rw [List.foldl_cons, ih, mem_keys_insertLast]
    constructor
    · rintro ((h | rfl) | ⟨x, hx, hxk⟩)
      · exact Or.inl h
      · exact Or.inr ⟨it, by simp, rfl⟩
      · exact Or.inr ⟨x, by simp [hx], hxk⟩
    · rintro (h | ⟨x, hx, hxk⟩)
      · exact Or.inl (Or.inl h)
      · rcases List.mem_cons.1 hx with rfl | hx'
        · exact Or.inl (Or.inr hxk.symm)
        · exact Or.inr ⟨x, hx', hxk⟩

theorem mem_keys_dedup (items : List ParsedItem) (k : String) :
    k ∈ (dedup items).map Prod.fst ↔ ∃ it ∈ items, it.key = k := by
  rw [dedup, mem_keys_foldl]
  simp

theorem lookupKV_insertLast_self (acc : List (String × String)) (k v : String) :
    lookupKV (insertLast acc k v) k = some v := by
  induction acc with
  | nil => simp [insertLast, lookupKV]
  | cons p t ih =>
    by_cases hp : p.1 = k
    · simp only [insertLast, List.any_cons, lookupKV]
      simp [hp, List.find?]
    · simp only [insertLast, List.any_cons, decide_eq_true_eq, hp, Bool.false_or]
      by_cases ht : t.any fun q => q.1 = k
      · simpa [insertLast, lookupKV, ht, List.find?, hp] using ih
      · simpa [insertLast, lookupKV, ht, List.find?, hp] using ih

theorem lookupKV_map_overwrite (t : List (String × String)) (k v k' : String)
    (h : k' ≠ k) :
    lookupKV (t.map fun p => if p.1 = k then (k, v) else p) k' = lookupKV t k' := by
  induction t with
  | nil => rfl
  | cons p u ih =>
    rw [List.map_cons]
    by_cases hp : p.1 = k
    · have h1 : (((k, v) : String × String).1 == k') = false := by
        simp [Ne.symm h]
      have h2 : (p.1 == k') = false := by
        simp [hp, Ne.symm h]
      unfold lookupKV at ih ⊢
      rw [if_pos hp, List.find?_cons_of_neg _ (by simp [h1]),
        List.find?_cons_of_neg _ (by simp [h2])]
      exact ih
    · rw [if_neg hp]
      by_cases hk' : p.1 = k'
      · unfold lookupKV
        rw [List.find?_cons_of_pos _ (by simp [hk']),
          List.find?_cons_of_pos _ (by simp [hk'])]
      · unfold lookupKV at ih ⊢
        rw [List.find?_cons_of_neg _ (by simp [hk']),
          List.find?_cons_of_neg _ (by simp [hk'])]
        exact ih

theorem lookupKV_insertLast_ne (acc : List (String × String)) {k k' : String}
    (v : String) (h : k' ≠ k) :
    lookupKV (insertLast acc k v) k' = lookupKV acc k' := by
  unfold insertLast
  split
  · exact lookupKV_map_overwrite acc k v k' h
  · unfold lookupKV
    rw [List.find?_append]
    have : (((k, v) : String × String).1 == k') = false := by simp [Ne.symm h]
    simp [List.find?, this]

theorem lookupKV_foldl (items : List ParsedItem) (acc : List (String × String))
    (k : String) :
    lookupKV (items.foldl (fun a it => insertLast a it.key it.value) acc) k
      = match lastVal items k with
        | some v => some v
        | none => lookupKV acc k := by
  induction items generalizing acc with
  | nil => simp [lastVal]
  | cons it rest ih =>
    rw [List.foldl_cons, ih]
    by_cases hk : it.key = k
    · cases hrest : lastVal rest k with
      | some v =>
        have hcons : lastVal (it :: rest) k = some v := by
          unfold lastVal at hrest ⊢
          rw [List.filter_cons_of_pos (by simp [hk])]
          cases hfil : (rest.filter fun x => x.key == k) with
          | nil => rw [hfil] at hrest; simp at hrest
          | cons y ys =>
            rw [hfil] at hrest
            rw [List.getLast?_cons_cons]
            exact hrest
        rw [hcons]
      | none =>
        have hcons : lastVal (it :: rest) k = some it.value := by
          unfold lastVal at hrest ⊢
          rw [List.filter_cons_of_pos (by simp [hk])]
          cases hfil : (rest.filter fun x => x.key == k) with
          | nil => simp
          | cons y ys => rw [hfil] at hrest; simp at hrest
        rw [hcons]
        subst hk
        exact lookupKV_insertLast_self acc it.key it.value
    · have hcons : lastVal (it :: rest) k = lastVal rest k := by
        unfold lastVal
        rw [List.filter_cons_of_neg (by simp [hk])]
      rw [hcons, lookupKV_insertLast_ne acc it.value (fun hkk => hk hkk.symm)]

theorem lookupKV_dedup (items : List ParsedItem) (k : String) :
    lookupKV (dedup items) k = lastVal items k := by
  rw [dedup, lookupKV_foldl]
  cases lastVal items k <;> rfl

theorem filter_keys_eq {l : List (String × String)}
    (hnd : (l.map Prod.fst).Nodup) (k : String) :
    l.filter (fun p => p.1 == k)
      = match lookupKV l k with
        | some v => [(k, v)]
        | none => [] := by
  induction l with
  | nil => rfl
  | cons p t ih =>
    simp only [List.map_cons, List.nodup_cons] at hnd
    obtain ⟨hp, ht⟩ := hnd
    by_cases hk : p.1 = k
    · rw [List.filter_cons_of_pos (by simp [hk])]
      have htf : t.filter (fun q => q.1 == k) = [] := by
        rw [List.filter_eq_nil_iff]
        intro q hq
        simp only [beq_iff_eq]
        intro hqk
        exact hp (by rw [← hk, ← hqk] at *; exact List.mem_map.2 ⟨q, hq, rfl⟩)
      have hl : lookupKV (p :: t) k = some p.2 := by
        unfold lookupKV
        rw [List.find?_cons_of_pos _ (by simp [hk])]
        rfl
      rw [htf, hl]
      have hpk : p = (k, p.2) := Prod.ext hk rfl
      show [p] = [(k, p.2)]
      rw [← hpk]
    · have hl : lookupKV (p :: t) k = lookupKV t k := by
        unfold lookupKV
        rw [List.find?_cons_of_neg _ (by simp [hk])]
      rw [List.filter_cons_of_neg (by simp [hk]), hl, ih ht]

/-! ### Row-building lemmas -/

theorem buildRows_length (n : Nat) (entries : List (String × String)) :
    (buildRows n entries).length = max INITIAL_ROW_COUNT entries.length := by
  simp [buildRows]

theorem buildRows_pairs (n : Nat) (entries : List (String × String)) :
    (buildRows n entries).map (fun r => (r.key, r.value))
      = entries ++ List.replicate (INITIAL_ROW_COUNT - entries.length) ("", "") := by
  apply List.ext_getElem
  · simp only [List.length_map, buildRows_length, List.length_append,
      List.length_replicate]
    unfold INITIAL_ROW_COUNT
    omega
  · intro i h1 h2
    simp only [List.length_map, buildRows_length] at h1
    rw [List.getElem_map]
    unfold buildRows
    rw [List.getElem_map, List.getElem_range _]
    by_cases hi : i < entries.length
    · rw [List.getElem?_eq_getElem hi]
      rw [List.getElem_append_left hi]
    · rw [List.getElem?_eq_none (by omega)]
      rw [List.getElem_append_right (by omega)]
      rw [List.getElem_replicate]

theorem buildRows_ids (n : Nat) (entries : List (String × String)) :
    (buildRows n entries).map (fun r => r.id)
      = (List.range (max INITIAL_ROW_COUNT entries.length)).map (fun i => n + i) := by
  unfold buildRows
  rw [List.map_map]
  apply List.map_congr_left
  intro i _
  simp only [Function.comp_apply]
  cases h : entries[i]? <;> simp [h]

theorem buildRows_ids_nodup (n : Nat) (entries : List (String × String)) :
    ((buildRows n entries).map (fun r => r.id)).Nodup := by
  rw [buildRows_ids]
  exact (List.nodup_range _).map fun a b h => by omega

theorem buildRows_id_ge {n : Nat} {entries : List (String × String)}
    {r : EnvironmentVariable} (h : r ∈ buildRows n entries) :
    n ≤ r.id ∧ r.id < n + max INITIAL_ROW_COUNT entries.length := by
  unfold buildRows at h
  rcases List.mem_map.1 h with ⟨i, hi, rfl⟩
  rw [List.mem_range] at hi
  cases entries[i]? <;> simp <;> omega

/-! ### Last-value lemmas and claims C3, C4 -/

theorem getLast?_eq_of_forall_eq {α : Type} {l : List α} {a : α}
    (hne : l ≠ []) (h : ∀ x ∈ l, x = a) : l.getLast? = some a := by
  induction l with
  | nil => exact absurd rfl hne
  | cons x t ih =>
    cases t with
    | nil => rw [h x (by simp)]; rfl
    | cons y u =>
      rw [List.getLast?_cons_cons]
      exact ih (by simp) fun z hz => h z (List.mem_cons_of_mem x hz)

theorem lastVal_isSome_of_mem {items : List ParsedItem} {k : String}
    (h : ∃ it ∈ items, it.key = k) : ∃ v, lastVal items k = some v := by
  obtain ⟨it, hit, hk⟩ := h
  have hmem : it ∈ items.filter (fun x => x.key == k) :=
    List.mem_filter.2 ⟨hit, by simp [hk]⟩
  unfold lastVal
  cases hl : (items.filter fun x => x.key == k).getLast? with
  | none =>
    rw [List.getLast?_eq_none_iff] at hl
    rw [hl] at hmem
    simp at hmem
  | some a => exact ⟨a.value, rfl⟩

theorem lastVal_eq_of_unique {items : List ParsedItem} {k : String}
    {a : ParsedItem} (ha : a ∈ items) (hk : a.key = k)
    (huniq : ∀ it ∈ items, it.key = k → it = a) :
    lastVal items k = some a.value := by
  have hmemf : a ∈ items.filter (fun it => it.key == k) :=
    List.mem_filter.2 ⟨ha, by simp [hk]⟩
  have hall : ∀ x ∈ items.filter (fun it => it.key == k), x = a := by
    intro x hx
    obtain ⟨hx1, hx2⟩ := List.mem_filter.1 hx
    exact huniq x hx1 (by simpa using hx2)
  unfold lastVal
  rw [getLast?_eq_of_forall_eq (List.ne_nil_of_mem hmemf) hall]
  rfl

/-- C3: when a key `k` occurs among the parsed items, the row list built by
`parseAndPopulate` contains exactly one row with key `k`, and that row's
value is the value of the key's last-occurring definition in the input. -/
theorem claim_C3 (s : EditorState) (k : String)
    (h : ∃ it ∈ parsedItems s.rawText, it.key = k) :
    ((parseAndPopulate s).«variables».filter (fun r => r.key == k)).length = 1
  ∧ ((parseAndPopulate s).«variables».filter (fun r => r.key == k)).map
      (fun r => r.value)
      = (lastVal (parsedItems s.rawText) k).toList := by
  obtain ⟨v, hv⟩ := lastVal_isSome_of_mem h
  have hkne : k ≠ "" := by
    obtain ⟨it, hit, hk⟩ := h
    exact hk ▸ parsedItems_key_ne_empty hit
  have hvars : (parseAndPopulate s).«variables»
      = buildRows s.nextId (dedup (parsedItems s.rawText)) := rfl
  have hfilmap :
      ((parseAndPopulate s).«variables».filter (fun r => r.key == k)).map
        (fun r => (r.key, r.value))
      = ((parseAndPopulate s).«variables».map (fun r => (r.key, r.value))).filter
          (fun q => q.1 == k) := by
    rw [List.filter_map]
    rfl
  have hchain :
      ((parseAndPopulate s).«variables».map (fun r => (r.key, r.value))).filter
        (fun q => q.1 == k) = [(k, v)] := by
    rw [hvars, buildRows_pairs, List.filter_append]
    have hrep : (List.replicate
        (INITIAL_ROW_COUNT - (dedup (parsedItems s.rawText)).length)
        (("", "") : String × String)).filter (fun q => q.1 == k) = [] := by
      rw [List.filter_eq_nil_iff]
      intro q hq
      rw [List.eq_of_mem_replicate hq]
      simp [Ne.symm hkne]
    rw [hrep, List.append_nil, filter_keys_eq (nodup_keys_dedup _) k,
      lookupKV_dedup, hv]
  constructor
  · have hlen := congrArg List.length (hfilmap.trans hchain)
    simpa using hlen
  · have hmapv :
        ((parseAndPopulate s).«variables».filter (fun r => r.key == k)).map
          (fun r => r.value)
        = (((parseAndPopulate s).«variables».filter (fun r => r.key == k)).map
            (fun r => (r.key, r.value))).map Prod.snd := by
      rw [List.map_map]
      rfl
    rw [hmapv, hfilmap, hchain, hv]
    rfl

/-- Witness for C3 on the spec's scenario `"A=1\nA=2"`. -/
theorem claim_C3_witness :
    (∃ it ∈ parsedItems ({ initState with rawText := "A=1\nA=2" } :
        EditorState).rawText, it.key = "A")
  ∧ (((parseAndPopulate { initState with rawText := "A=1\nA=2" }).«variables».filter
        (fun r => r.key == "A")).length = 1
    ∧ ((parseAndPopulate { initState with rawText := "A=1\nA=2" }).«variables».filter
        (fun r => r.key == "A")).map (fun r => r.value)
        = (lastVal (parsedItems ({ initState with rawText := "A=1\nA=2" } :
            EditorState).rawText) "A").toList) :=
  ⟨by decide, claim_C3 { initState with rawText := "A=1\nA=2" } "A" (by decide)⟩

/-- C4: `parseAndPopulate` yields `max 20 N` rows where `N` is the number of
unique parsed keys (the deduplicated entry count): the deduplicated entries
come first, then `20 − N` empty padding rows when `N < 20` and none when
`N ≥ 20`; row ids are pairwise distinct, the entry keys are distinct, and
they are exactly the keys occurring among the parsed items. -/
theorem claim_C4 (s : EditorState) :
    (parseAndPopulate s).«variables».length
      = max INITIAL_ROW_COUNT (dedup (parsedItems s.rawText)).length
  ∧ (parseAndPopulate s).«variables».map (fun r => (r.key, r.value))
      = dedup (parsedItems s.rawText)
        ++ List.replicate
            (INITIAL_ROW_COUNT - (dedup (parsedItems s.rawText)).length) ("", "")
  ∧ ((parseAndPopulate s).«variables».map (fun r => r.id)).Nodup
  ∧ ((dedup (parsedItems s.rawText)).map Prod.fst).Nodup
  ∧ (∀ k, k ∈ (dedup (parsedItems s.rawText)).map Prod.fst
        ↔ ∃ it ∈ parsedItems s.rawText, it.key = k) := by
  have hvars : (parseAndPopulate s).«variables»
      = buildRows s.nextId (dedup (parsedItems s.rawText)) := rfl
  refine ⟨?_, ?_, ?_, nodup_keys_dedup _, fun k => mem_keys_dedup _ k⟩
  · rw [hvars, buildRows_length]
  · rw [hvars, buildRows_pairs]
  · rw [hvars]
    exact buildRows_ids_nodup _ _

/-! ### Claims C10 and C6: warnings -/

/-- C10: `parseAndPopulate` never emits a duplicate-key warning — the
duplicate-detection loop over the never-populated `keyCounts` contributes
nothing, so the warning list is exactly `parseWarningMessages` and every
warning is a no-`'='` or an empty-key message. -/
theorem claim_C10 (raw w : String) (hw : w ∈ allWarnings raw) :
    duplicateWarnings = []
  ∧ allWarnings raw = parseWarningMessages raw
  ∧ ((∃ n t, w = noEqWarning n t) ∨ (∃ n t, w = emptyKeyWarning n t)) := by
  refine ⟨rfl, by simp [allWarnings, duplicateWarnings, keyCounts], ?_⟩
  have hw' : w ∈ parseWarningMessages raw := by
    simpa [allWarnings, duplicateWarnings, keyCounts] using hw
  rcases List.mem_filterMap.1 hw' with ⟨⟨idx, l⟩, -, hres⟩
  rcases lineResult_snd_shape hres with h | h
  · exact Or.inl ⟨idx + 1, jsTrim l, h⟩
  · exact Or.inr ⟨idx + 1, jsTrim l, h⟩

/-- Witness for C10 at the input `"x"` (its single line has no `'='`). -/
theorem claim_C10_witness :
    (noEqWarning 1 "x" ∈ allWarnings "x")
  ∧ (duplicateWarnings = []
    ∧ allWarnings "x" = parseWarningMessages "x"
    ∧ ((∃ n t, noEqWarning 1 "x" = noEqWarning n t)
       ∨ (∃ n t, noEqWarning 1 "x" = emptyKeyWarning n t))) :=
  ⟨by decide, claim_C10 "x" (noEqWarning 1 "x") (by decide)⟩

theorem no_item_of_lineResult_none {raw : String} {i : Nat} {l : String}
    (hline : (splitLines raw)[i]? = some l)
    (hres : (lineResult i l).1 = none) :
    ∀ it ∈ parsedItems raw, it.line ≠ i + 1 := by
  intro it hit hlit
  obtain ⟨l', hg', hr'⟩ := mem_parsedItems hit
  rw [hlit, Nat.add_sub_cancel] at hg' hr'
  rw [hline] at hg'
  obtain rfl : l = l' := Option.some.inj hg'
  have := hres.symm.trans hr'
  simp at this

/-- C6: a non-blank, non-comment line that cannot yield a pair produces no
parsed item for its (1-based) line number and records the exact warning:
the no-`'='` message when the trimmed line has no `'='`, and the empty-key
message when it has one but its key trims to empty. -/
theorem claim_C6 (s : EditorState) (i : Nat) (l : String)
    (hline : (splitLines s.rawText)[i]? = some l)
    (hne : jsTrim l ≠ "")
    (hnc : startsWithHash (jsTrim l) = false) :
    (splitFirstEq (jsTrim l) = none →
       noEqWarning (i + 1) (jsTrim l) ∈ allWarnings s.rawText
     ∧ ∀ it ∈ parsedItems s.rawText, it.line ≠ i + 1)
  ∧ (∀ pre post, splitFirstEq (jsTrim l) = some (pre, post) → jsTrim pre = "" →
       emptyKeyWarning (i + 1) (jsTrim l) ∈ allWarnings s.rawText
     ∧ ∀ it ∈ parsedItems s.rawText, it.line ≠ i + 1) := by
  have hmem : (i, l) ∈ (splitLines s.rawText).enum :=
    List.mk_mem_enum_iff_getElem?.2 hline
  constructor
  · intro hnone
    have hres : lineResult i l = (none, some (noEqWarning (i + 1) (jsTrim l))) := by
      simp only [lineResult]
      rw [if_neg (by simp [hne, hnc]), hnone]
    constructor
    · apply List.mem_append_left
      exact List.mem_filterMap.2 ⟨(i, l), hmem, by rw [hres]⟩
    · exact no_item_of_lineResult_none hline (by rw [hres])
  · intro pre post hsome hkey
    have hres : lineResult i l
        = (none, some (emptyKeyWarning (i + 1) (jsTrim l))) := by
      simp only [lineResult]
      rw [if_neg (by simp [hne, hnc]), hsome]
      simp [hkey]
    constructor
    · apply List.mem_append_left
      exact List.mem_filterMap.2 ⟨(i, l), hmem, by rw [hres]⟩
    · exact no_item_of_lineResult_none hline (by rw [hres])

/-- Witness for C6 on the spec's scenario line `"onlykey"` (no `'='`). -/
theorem claim_C6_witness :
    noEqWarning 1 "onlykey" ∈ allWarnings "onlykey\nFOO=bar"
  ∧ ∀ it ∈ parsedItems "onlykey\nFOO=bar", it.line ≠ 1 :=
  (claim_C6 { initState with rawText := "onlykey\nFOO=bar" } 0 "onlykey"
    (by decide) (by decide) (by decide)).1 (by decide)

/-! ### Claim C5: valid unique lines become rows -/

/-- C5: a line whose first-`'='` split gives a key matching
`[A-Za-z0-9_]+` after trimming, when that key is parsed from no other
line, yields a row whose key is the trimmed key and whose value is the
text after the first `'='`, trimmed. -/
theorem claim_C5 (s : EditorState) (i : Nat) (l pre post : String)
    (hline : (splitLines s.rawText)[i]? = some l)
    (hsplit : splitFirstEq (jsTrim l) = some (pre, post))
    (hkey : keyRegexTest (jsTrim pre) = true)
    (huniq : ∀ it ∈ parsedItems s.rawText, it.key = jsTrim pre → it.line = i + 1) :
    ∃ r ∈ (parseAndPopulate s).«variables»,
      r.key = jsTrim pre ∧ r.value = jsTrim post := by
  have hdecomp : ∃ a b, splitAtFirstEq (jsTrim l).data = some (a, b)
      ∧ pre = ⟨a⟩ ∧ post = ⟨b⟩ := by
    unfold splitFirstEq at hsplit
    cases hs : splitAtFirstEq (jsTrim l).data with
    | none => rw [hs] at hsplit; simp at hsplit
    | some p =>
      rw [hs] at hsplit
      obtain ⟨p1, p2⟩ := p
      simp only [Option.some.injEq, Prod.mk.injEq] at hsplit
      exact ⟨p1, p2, rfl, hsplit.1.symm, hsplit.2.symm⟩
  obtain ⟨a, b, hab, rfl, rfl⟩ := hdecomp
  have hkdata : ¬(jsTrim (⟨a⟩ : String)).data.isEmpty
      ∧ (jsTrim (⟨a⟩ : String)).data.all isKeyChar := by
    simpa [keyRegexTest, Bool.and_eq_true] using hkey
  have hl_data : (jsTrim l).data = a ++ '=' :: b := splitAtFirstEq_eq hab
  obtain ⟨c, a', rfl⟩ : ∃ c a', a = c :: a' := by
    cases a with
    | nil =>
      exfalso
      exact hkdata.1 (by simp [jsTrim, trimList])
    | cons c a' => exact ⟨c, a', rfl⟩
  have hlc : (jsTrim l).data = c :: (a' ++ '=' :: b) := by simpa using hl_data
  have hcns : jsWhitespace c = false := @trimList_head_not_ws l.data c _ hlc
  obtain ⟨t, ht⟩ : ∃ t, (jsTrim (⟨c :: a'⟩ : String)).data = c :: t := by
    rcases @trimList_cons_head c a' hcns with h0 | ⟨t, ht⟩
    · exact absurd (by simp [jsTrim, h0] : (jsTrim (⟨c :: a'⟩ : String)).data.isEmpty)
        hkdata.1
    · exact ⟨t, ht⟩
  have hckey : isKeyChar c = true := by
    have hall := hkdata.2
    rw [ht] at hall
    simp only [List.all_cons, Bool.and_eq_true] at hall
    exact hall.1
  have hchash : c ≠ '#' := by
    intro hc
    rw [hc] at hckey
    exact absurd hckey (by decide)
  have hne : jsTrim l ≠ "" := by
    intro h0
    have hd := congrArg String.data h0
    rw [hlc] at hd
    simp at hd
  have hnc : startsWithHash (jsTrim l) = false := by
    unfold startsWithHash
    rw [hlc]
    simp [hchash]
  have hkne : jsTrim (⟨c :: a'⟩ : String) ≠ "" := by
    intro h0
    have hd := congrArg String.data h0
    rw [ht] at hd
    simp at hd
  have hres : lineResult i l
      = (some ⟨jsTrim (⟨c :: a'⟩ : String), jsTrim (⟨b⟩ : String), i + 1⟩, none) := by
    simp only [lineResult]
    rw [if_neg (by simp [hne, hnc]), hsplit]
    simp [hkne]
  have hitem_mem :
      (⟨jsTrim (⟨c :: a'⟩ : String), jsTrim (⟨b⟩ : String), i + 1⟩ : ParsedItem)
        ∈ parsedItems s.rawText :=
    List.mem_filterMap.2
      ⟨(i, l), List.mk_mem_enum_iff_getElem?.2 hline, by rw [hres]⟩
  have huniq2 : ∀ it ∈ parsedItems s.rawText, it.key = jsTrim (⟨c :: a'⟩ : String) →
      it = ⟨jsTrim (⟨c :: a'⟩ : String), jsTrim (⟨b⟩ : String), i + 1⟩ := by
    intro it hit hk
    exact parsedItems_line_unique hit hitem_mem (by rw [huniq it hit hk])
  have hlast : lastVal (parsedItems s.rawText) (jsTrim (⟨c :: a'⟩ : String))
      = some (jsTrim (⟨b⟩ : String)) :=
    lastVal_eq_of_unique hitem_mem rfl huniq2
  have hlook : lookupKV (dedup (parsedItems s.rawText)) (jsTrim (⟨c :: a'⟩ : String))
      = some (jsTrim (⟨b⟩ : String)) := by
    rw [lookupKV_dedup, hlast]
  have hpair_mem : (jsTrim (⟨c :: a'⟩ : String), jsTrim (⟨b⟩ : String))
      ∈ dedup (parsedItems s.rawText) := by
    unfold lookupKV at hlook
    rcases Option.map_eq_some'.1 hlook with ⟨q, hq, hq2⟩
    have hq1 : q.1 = jsTrim (⟨c :: a'⟩ : String) := by simpa using List.find?_some hq
    have hqe : q = (jsTrim (⟨c :: a'⟩ : String), jsTrim (⟨b⟩ : String)) :=
      Prod.ext hq1 hq2
    rw [← hqe]
    exact List.mem_of_find?_eq_some hq
  have hrow : (jsTrim (⟨c :: a'⟩ : String), jsTrim (⟨b⟩ : String))
      ∈ (parseAndPopulate s).«variables».map (fun r => (r.key, r.value)) := by
    have hvars : (parseAndPopulate s).«variables»
        = buildRows s.nextId (dedup (parsedItems s.rawText)) := rfl
    rw [hvars, buildRows_pairs]
    exact List.mem_append_left _ hpair_mem
  rcases List.mem_map.1 hrow with ⟨r, hr, hpr⟩
  exact ⟨r, hr, congrArg Prod.fst hpr, congrArg Prod.snd hpr⟩

/-- Witness for C5 on the line `"FOO=bar"`. -/
theorem claim_C5_witness :
    ∃ r ∈ (parseAndPopulate { initState with rawText := "FOO=bar" }).«variables»,
      r.key = jsTrim "FOO" ∧ r.value = jsTrim "bar" :=
  claim_C5 { initState with rawText := "FOO=bar" } 0 "FOO=bar" "FOO" "bar"
    (by decide) (by decide) (by decide) (by decide)

/-! ### Claim C8: clear all -/

theorem idsBelow_parseAndPopulate (t : EditorState) :
    idsBelow (parseAndPopulate t) := by
  intro r hr
  have hvars : (parseAndPopulate t).«variables»
      = buildRows t.nextId (dedup (parsedItems t.rawText)) := rfl
  rw [hvars] at hr
  exact (buildRows_id_ge hr).2

theorem idsBelow_clearAll (s : EditorState) : idsBelow (clearAll s) := by
  intro r hr
  simp only [clearAll] at hr ⊢
  rcases List.mem_map.1 hr with ⟨i, hi, rfl⟩
  rw [List.mem_range] at hi
  simpa using by omega

theorem idsBelow_effectStep {t : EditorState} (ht : idsBelow t) :
    idsBelow (effectStep t) := by
  unfold effectStep
  split
  · exact idsBelow_parseAndPopulate t
  · exact ht

theorem idsBelow_applyOp {s : EditorState} (hs : idsBelow s) (o : Op) :
    idsBelow (applyOp s o) := by
  cases o with
  | textChange t => exact idsBelow_effectStep fun r hr => hs r hr
  | varChange id field v =>
    cases field with
    | key =>
      intro r hr
      rcases List.mem_map.1 hr with ⟨r0, hr0, rfl⟩
      have hid : ∀ q : EnvironmentVariable,
          (if r0.id = id then ({ r0 with key := v } : EnvironmentVariable)
           else r0).id = r0.id := by
        intro q
        split <;> rfl
      show (if r0.id = id then ({ r0 with key := v } : EnvironmentVariable)
        else r0).id < s.nextId
      rw [hid r0]
      exact hs r0 hr0
    | value =>
      intro r hr
      rcases List.mem_map.1 hr with ⟨r0, hr0, rfl⟩
      have hid : (if r0.id = id then ({ r0 with value := v } : EnvironmentVariable)
          else r0).id = r0.id := by
        split <;> rfl
      show (if r0.id = id then ({ r0 with value := v } : EnvironmentVariable)
        else r0).id < s.nextId
      rw [hid]
      exact hs r0 hr0
  | addRow =>
    intro r hr
    rcases List.mem_append.1 hr with h | h
    · exact Nat.lt_succ_of_lt (hs r h)
    · rw [List.mem_singleton] at h
      rw [h]
      exact Nat.lt_succ_self _
  | deleteRow id =>
    intro r hr
    exact hs r (List.mem_of_mem_filter hr)
  | doClearText => exact idsBelow_effectStep fun r hr => hs r hr
  | doClearAll => exact idsBelow_effectStep (idsBelow_clearAll s)
  | statusTimeout => exact fun r hr => hs r hr
  | rerender => exact idsBelow_effectStep hs

theorem idsBelow_run (ops : List Op) : idsBelow (run ops) := by
  have haux : ∀ (os : List Op) (s : EditorState), idsBelow s →
      idsBelow (os.foldl applyOp s) := by
    intro os
    induction os with
    | nil => exact fun s hs => hs
    | cons o t ih => exact fun s hs => ih _ (idsBelow_applyOp hs o)
  apply haux
  intro r hr
  simp only [initState] at hr ⊢
  rcases List.mem_map.1 hr with ⟨i, hi, rfl⟩
  rw [List.mem_range] at hi
  simpa using hi

/-- C8: from any state reachable by a sequence of UI events, `clearAll`
restores the initial configuration: 20 empty rows with fresh pairwise
distinct ids (none reused from the current rows), empty `rowErrors`,
cleared `error`, empty `rawText` and cleared `status` — and the re-parse
effect on the result is a no-op. -/
theorem claim_C8 (ops : List Op) :
    effectStep (clearAll (run ops)) = clearAll (run ops)
  ∧ (clearAll (run ops)).«variables».length = INITIAL_ROW_COUNT
  ∧ (∀ r ∈ (clearAll (run ops)).«variables», r.key = "" ∧ r.value = "")
  ∧ ((clearAll (run ops)).«variables».map (fun r => r.id)).Nodup
  ∧ (∀ r ∈ (clearAll (run ops)).«variables»,
       ∀ r' ∈ (run ops).«variables», r.id ≠ r'.id)
  ∧ (clearAll (run ops)).rowErrors = []
  ∧ (clearAll (run ops)).error = none
  ∧ (clearAll (run ops)).rawText = ""
  ∧ (clearAll (run ops)).status = none := by
  refine ⟨?_, ?_, ?_, ?_, ?_, rfl, rfl, rfl, rfl⟩
  · simp [effectStep, clearAll]
  · simp [clearAll]
  · intro r hr
    simp only [clearAll] at hr
    rcases List.mem_map.1 hr with ⟨i, -, rfl⟩
    exact ⟨rfl, rfl⟩
  · simp only [clearAll]
    rw [List.map_map]
    refine List.Nodup.map ?_ (List.nodup_range _)
    intro x y h
    have h' : (run ops).nextId + x = (run ops).nextId + y := h
    omega
  · intro r hr r' hr'
    simp only [clearAll] at hr
    rcases List.mem_map.1 hr with ⟨i, -, rfl⟩
    have hlt := idsBelow_run ops r' hr'
    simp only []
    show (run ops).nextId + i ≠ r'.id
    omega

end VarManager
